import Mathlib

/-!
Verification of the AIKEN question pipeline core (chunker, record codec,
relevance matcher) against its specification.

Shallow embedding conventions:
* Python strings are modelled as `List Char` (`Line`).
* File contents are modelled at the line level (`List Line`), matching
  `readlines` followed by per-line `strip()`.
* Python `str.strip()` is `pstrip`, `str.split(sep)` is `splitC`,
  `str.split()` (whitespace split) is `pysplit`, `str.startswith` is
  `startsWithL`.
-/

abbrev Line := List Char

/-- The whitespace set of Python `str.strip()` / `str.split()` / `\s`
(ASCII part): space, tab, newline, carriage return, vertical tab, form feed. -/
def pyws (c : Char) : Bool :=
  c = ' ' || c = '\t' || c = '\n' || c = '\r' || c = '\x0b' || c = '\x0c'

/-- Left strip: drop leading Python whitespace. -/
def pstripL (l : Line) : Line := l.dropWhile pyws

/-- Right strip: drop trailing Python whitespace. -/
def pstripR : Line → Line
  | [] => []
  | c :: cs =>
    let r := pstripR cs
    if r = [] then if pyws c then [] else [c] else c :: r

/-- Python `str.strip()`. -/
def pstrip (l : Line) : Line := pstripR (pstripL l)

/-- Python `str.startswith(pre)`. -/
def startsWithL : List Char → List Char → Bool
  | [], _ => true
  | _ :: _, [] => false
  | p :: ps, c :: cs => p = c && startsWithL ps cs

/-- Python `str.split(sep)` (single-character separator, empties kept). -/
def splitC (sep : Char) : List Char → List (List Char)
  | [] => [[]]
  | c :: cs =>
    let r := splitC sep cs
    if c = sep then [] :: r
    else (c :: r.headI) :: r.tail

/-- Python `str.split()` with no argument: split on whitespace runs,
discarding empty tokens.  `acc` holds the current word reversed. -/
def pysplitAux : List Char → List Char → List (List Char)
  | [], acc => if acc = [] then [] else [acc.reverse]
  | c :: cs, acc =>
    if pyws c then
      if acc = [] then pysplitAux cs []
      else acc.reverse :: pysplitAux cs []
    else pysplitAux cs (c :: acc)

def pysplit (l : Line) : List Line := pysplitAux l []

/-- `chr(65 + i)`: the option letter for position `i`. -/
def letterChr (i : Nat) : Char := Char.ofNat (65 + i)

/-- A question record (the dicts with keys `question`, `options`, `correct`
built by `load_questions` / `_parse_question`; `correct` is `None` until an
`ANSWER:` line is seen). -/
structure QRec where
  question : Line
  options : List Line
  correct : Option Line
deriving DecidableEq

/-- `f"{question['correct']}"`: Python string interpolation of the `correct`
field, rendering `None` as the string `"None"`. -/
def showCorrect : Option Line → Line
  | some c => c
  | none => "None".data

/-- `src/utils.py` `save_questions`, one record's lines: the question line,
one `"<Letter>. <option>"` line per option, the `"ANSWER: <correct>"` line,
and the blank line produced by the trailing `"\n\n"`. -/
def saveLines (q : QRec) : List Line :=
  q.question
    :: (q.options.enum.map fun p => letterChr p.1 :: '.' :: ' ' :: p.2)
    ++ ["ANSWER: ".data ++ showCorrect q.correct, []]

/-- `src/utils.py` `save_questions`: the full file, as a list of lines. -/
def saveQuestions (qs : List QRec) : List Line :=
  (qs.map saveLines).flatten

/-- `line.split(':')[1].strip()` in `load_questions`.  The `getD` default is
unreachable for lines starting with `"ANSWER:"` (they contain a colon, so the
split has at least two parts); see `loadQuestionsChecked`. -/
def ansTail (line : Line) : Line :=
  pstrip ((splitC ':' line).getD 1 [])

/-- One iteration of the scanning loop of `src/utils.py` `load_questions`
(lines 88-111).  State: the `current_question` accumulator and the
`questions` list built so far.  The `getD` defaults `'?'` in the option
branch are unreachable: that branch is only taken on lines starting with
`A.`/`B.`/`C.`/`D.` (length at least 2); see `loadQuestionsChecked`. -/
def loadStep (st : Option QRec × List QRec) (raw : Line) :
    Option QRec × List QRec :=
  let line := pstrip raw
  if line = [] then
    match st.1 with
    | some q =>
      if q.options.length = 4 then (none, st.2 ++ [q]) else (none, st.2)
    | none => (none, st.2)
  else if !(startsWithL "A.".data line || startsWithL "B.".data line ||
      startsWithL "C.".data line || startsWithL "D.".data line ||
      startsWithL "ANSWER:".data line) then
    (some ⟨line, [], none⟩, st.2)
  else if startsWithL "ANSWER:".data line then
    match st.1 with
    | some q => (some { q with correct := some (ansTail line) }, st.2)
    | none => (none, st.2)
  else
    match st.1 with
    | some q =>
      if (['A', 'B', 'C', 'D'] : List Char).contains (line.getD 0 '?')
          && line.getD 1 '?' = '.' then
        (some { q with options := q.options ++ [pstrip (line.drop 2)] }, st.2)
      else (st.1, st.2)
    | none => (st.1, st.2)

/-- `src/utils.py` `load_questions` (at line level: the file has already been
read with `readlines` and each line is stripped by the loop). -/
def loadQuestions (lines : List Line) : List QRec :=
  let s := lines.foldl loadStep (none, [])
  match s.1 with
  | some q => if q.options.length = 4 then s.2 ++ [q] else s.2
  | none => s.2

/-- The checked counterpart of `loadStep`: it returns `none` exactly where
the Python loop body would raise an `IndexError` (`line[0]`, `line[1]`, or
`line.split(':')[1]` out of range), mirroring Python's left-to-right
short-circuit evaluation of `current_question and line[0] in 'ABCD' and
line[1] == '.'`. -/
def loadStepChecked (st : Option QRec × List QRec) (raw : Line) :
    Option (Option QRec × List QRec) :=
  let line := pstrip raw
  if line = [] then
    some (match st.1 with
      | some q =>
        if q.options.length = 4 then (none, st.2 ++ [q]) else (none, st.2)
      | none => (none, st.2))
  else if !(startsWithL "A.".data line || startsWithL "B.".data line ||
      startsWithL "C.".data line || startsWithL "D.".data line ||
      startsWithL "ANSWER:".data line) then
    some (some ⟨line, [], none⟩, st.2)
  else if startsWithL "ANSWER:".data line then
    match st.1 with
    | some q =>
      let parts := splitC ':' line
      if 2 ≤ parts.length then
        some (some { q with correct := some (pstrip (parts.getD 1 [])) }, st.2)
      else none
    | none => some (none, st.2)
  else
    match st.1 with
    | some q =>
      if line.length < 1 then none
      else if (['A', 'B', 'C', 'D'] : List Char).contains (line.getD 0 '?') then
        if line.length < 2 then none
        else if line.getD 1 '?' = '.' then
          some (some { q with options := q.options ++ [pstrip (line.drop 2)] },
            st.2)
        else some (st.1, st.2)
      else some (st.1, st.2)
    | none => some (st.1, st.2)

/-- `load_questions` with explicit failure on any out-of-range indexing. -/
def loadQuestionsChecked (lines : List Line) : Option (List QRec) := do
  let s ← lines.foldlM loadStepChecked (none, [])
  match s.1 with
  | some q => if q.options.length = 4 then pure (s.2 ++ [q]) else pure s.2
  | none => pure s.2

/-- Does position `i` of `text` carry a sentence terminator followed by a
space?  `max(rfind('. '), rfind('? '), rfind('! '))` in `chunk_text` is the
greatest position matching any of the three two-character patterns, i.e. the
greatest `i` satisfying this predicate.  The `getD` default `'x'` matches
neither character class, so out-of-range reads never match (as in Python,
where a pattern must fit inside the searched slice). -/
def boundaryAt (text : List Char) (i : Nat) : Bool :=
  (['.', '?', '!'] : List Char).contains (text.getD i 'x')
    && text.getD (i + 1) 'x' = ' '

/-- Scan `i, i-1, ..., pos` for the greatest boundary position. -/
def findBoundaryAux (text : List Char) (pos : Nat) : Nat → Option Nat
  | 0 => if pos = 0 && boundaryAt text 0 then some 0 else none
  | i + 1 =>
    if i + 1 < pos then none
    else if boundaryAt text (i + 1) then some (i + 1)
    else findBoundaryAux text pos i

/-- `max(text.rfind('. ', pos, e), text.rfind('? ', pos, e),
text.rfind('! ', pos, e))` from `chunk_text`, with `-1` (not found)
modelled as `none`: the greatest boundary position in `[pos, e-2]`. -/
def findBoundary (text : List Char) (pos e : Nat) : Option Nat :=
  if e < 2 then none else findBoundaryAux text pos (e - 2)

theorem findBoundaryAux_ge (text : List Char) (pos : Nat) :
    ∀ i j, findBoundaryAux text pos i = some j → pos ≤ j := by
  intro i
  induction i with
  | zero =>
    intro j h
    simp only [findBoundaryAux] at h
    split at h
    · rename_i hc
      simp at hc h
      omega
    · exact absurd h (by simp)
  | succ i ih =>
    intro j h
    simp only [findBoundaryAux] at h
    split at h
    · exact absurd h (by simp)
    · split at h
      · rename_i hlt _
        cases h
        omega
      · exact ih j h

theorem findBoundaryAux_le (text : List Char) (pos : Nat) :
    ∀ i j, findBoundaryAux text pos i = some j → j ≤ i := by
  intro i
  induction i with
  | zero =>
    intro j h
    simp only [findBoundaryAux] at h
    split at h
    · cases h; omega
    · exact absurd h (by simp)
  | succ i ih =>
    intro j h
    simp only [findBoundaryAux] at h
    split at h
    · exact absurd h (by simp)
    · split at h
      · cases h
        omega
      · exact Nat.le_succ_of_le (ih j h)

theorem findBoundary_ge (text : List Char) (pos e j : Nat)
    (h : findBoundary text pos e = some j) : pos ≤ j := by
  unfold findBoundary at h
  split at h
  · exact absurd h (by simp)
  · exact findBoundaryAux_ge text pos _ j h

theorem findBoundary_le (text : List Char) (pos e j : Nat)
    (h : findBoundary text pos e = some j) : j + 2 ≤ e := by
  unfold findBoundary at h
  split at h
  · exact absurd h (by simp)
  · have := findBoundaryAux_le text pos _ j h
    omega

/-- The `split_pos` chosen by `chunk_text` for the window `[pos, e)`:
the boundary if found, else the hard cut at `e` (`split_pos = end`). -/
def splitPos (text : List Char) (pos e : Nat) : Nat :=
  (findBoundary text pos e).getD e

theorem splitPos_ge (text : List Char) (pos e : Nat) (h : pos ≤ e) :
    pos ≤ splitPos text pos e := by
  unfold splitPos
  cases hb : findBoundary text pos e with
  | none => simpa using h
  | some j => simpa using findBoundary_ge text pos e j hb

theorem splitPos_le (text : List Char) (pos e : Nat) :
    splitPos text pos e ≤ e := by
  unfold splitPos
  cases hb : findBoundary text pos e with
  | none => simp
  | some j =>
    have := findBoundary_le text pos e j hb
    simp
    omega

/-- The scanning loop of `src/utils.py` `chunk_text` (lines 27-47), from
position `pos`.  In the recursive branch `pos + chunkSize < text.length`, so
`end = min(pos + chunk_size, len(text)) = pos + chunkSize`.  The emitted
chunk is `text[pos : split_pos + 1].strip()`; the final chunk `text[pos:]`
is emitted unstripped. -/
def chunkTextAux (text : List Char) (chunkSize : Nat) (pos : Nat) :
    List (List Char) :=
  if h : pos < text.length then
    if text.length ≤ pos + chunkSize then
      [text.drop pos]
    else
      let split := splitPos text pos (pos + chunkSize)
      pstrip ((text.drop pos).take (split + 1 - pos))
        :: chunkTextAux text chunkSize (split + 1)
  else []
termination_by text.length - pos
decreasing_by
  have hge : pos ≤ splitPos text pos (pos + chunkSize) :=
    splitPos_ge text pos (pos + chunkSize) (Nat.le_add_right _ _)
  omega

/-- `src/utils.py` `chunk_text`. -/
def chunkText (text : Line) (chunkSize : Nat) : List Line :=
  chunkTextAux text chunkSize 0

/-- Accumulator of `_parse_question`'s component-splitting loop
(`src/question_generator.py` lines 209-223): collected question lines,
option lines, last `ANSWER:` line, and whether `current_part` has switched
from `'question'` to `'options'`. -/
structure PQComponents where
  qlines : List Line
  opts : List Line
  answer : Option Line
  inOpts : Bool
deriving DecidableEq

/-- One iteration of `_parse_question`'s component-splitting loop.  The
option test models the regex `^[A-D]\.`: first character in `A`-`D` and
second character `'.'` (the `getD` default `'?'` makes short lines fail the
match, as the regex does). -/
def pqStep (st : PQComponents) (raw : Line) : PQComponents :=
  let line := pstrip raw
  if line = [] then st
  else if startsWithL "ANSWER:".data line then { st with answer := some line }
  else if (['A', 'B', 'C', 'D'] : List Char).contains (line.getD 0 '?')
      && line.getD 1 '?' = '.' then
    { st with inOpts := true, opts := st.opts ++ [line] }
  else if st.inOpts = false then { st with qlines := st.qlines ++ [line] }
  else st

/-- The `option_dict` of `_parse_question`: one slot per letter key. -/
structure ODict where
  a : Option Line
  b : Option Line
  c : Option Line
  d : Option Line
deriving DecidableEq

/-- One iteration of the `option_dict` loop (`src/question_generator.py`
lines 234-240): keyed on the first two characters, overwriting on duplicate
keys; an invalid key aborts the whole parse (`return None`). -/
def odictInsert (dct : ODict) (opt : Line) : Option ODict :=
  let key := opt.take 2
  if key = "A.".data then some { dct with a := some (pstrip (opt.drop 2)) }
  else if key = "B.".data then some { dct with b := some (pstrip (opt.drop 2)) }
  else if key = "C.".data then some { dct with c := some (pstrip (opt.drop 2)) }
  else if key = "D.".data then some { dct with d := some (pstrip (opt.drop 2)) }
  else none

/-- `re.match(r'^ANSWER:\s*([A-D])$', line)`: after the literal `ANSWER:`,
optional whitespace, then exactly one letter `A`-`D` at end of line. -/
def answerLetter (line : Line) : Option Char :=
  if startsWithL "ANSWER:".data line then
    match (line.drop 7).dropWhile pyws with
    | [c] =>
      if (['A', 'B', 'C', 'D'] : List Char).contains c then some c else none
    | _ => none
  else none

/-- The validation half of `_parse_question` (lines 226-260), applied to the
components collected by the loop: structural validation, question joining,
the `option_dict` build/readout, and the answer regex. -/
def pqFinish (st : PQComponents) : Option QRec :=
  if st.qlines = [] ∨ st.opts.length ≠ 4 ∨ st.answer = none then none
  else
    match st.opts.foldlM odictInsert ⟨none, none, none, none⟩ with
    | none => none
    | some dct =>
      match dct.a, dct.b, dct.c, dct.d with
      | some oa, some ob, some oc, some od =>
        match st.answer with
        | some al =>
          match answerLetter al with
          | some ch =>
            some ⟨pstrip (List.intercalate [' '] st.qlines),
              [oa, ob, oc, od], some [ch]⟩
          | none => none
        | none => none
      | _, _, _, _ => none

/-- `src/question_generator.py` `QuestionGenerator._parse_question`, on the
block's lines (the function receives the block as one string and splits it
on `'\n'`; the model takes the resulting line list). -/
def parseQuestion (lines : List Line) : Option QRec :=
  pqFinish (lines.foldl pqStep ⟨[], [], none, false⟩)

/-- The fixed placeholder feedback string of `gift_converter.py`. -/
def placeholderFb : Line :=
  "Consultare il Codice Civile per il testo completo".data

/-- `src/gift_converter.py` `GiftConverter.convert_to_gift` (lines 188-203),
with the feedback lists (produced by the network-backed `generate_feedback`
collaborator) passed as arguments.  The fold state is the string built so
far and `wrong_idx`. -/
def convertToGift (q : QRec) (cfb wfb : List Line) : Line :=
  let header := "::Q:: ".data ++ q.question ++ "\n\x7b".data
  let step : (Line × Nat) → (Nat × Line) → (Line × Nat) := fun st p =>
    if q.correct = some [letterChr p.1] then
      (st.1 ++ " =".data ++ p.2 ++ " # ".data ++ cfb.headD placeholderFb,
        st.2)
    else
      (st.1 ++ " ~".data ++ p.2 ++ " # ".data ++ wfb.getD st.2 placeholderFb,
        st.2 + 1)
  (q.options.enum.foldl step (header, 0)).1 ++ " \x7d\n\n".data

/-- Lower-cased whitespace-tokenized words of a string:
`set(s.lower().split())` before taking the set. -/
def lowerWords (l : Line) : List Line := pysplit (l.map Char.toLower)

/-- `len(set(q.lower().split()) & set(c.lower().split()))`: the number of
distinct question words also occurring in the chunk. -/
def wordOverlap (q c : Line) : Nat :=
  ((lowerWords q).dedup.filter fun w => (lowerWords c).contains w).length

/-- One iteration of the relevance loop of `gift_converter.py` /
`second_passage.py` `main`: update only on a strictly greater overlap. -/
def bestStep (q : Line) (st : Option Line × Nat) (c : Line) :
    Option Line × Nat :=
  if st.2 < wordOverlap q c then (some c, wordOverlap q c) else st

/-- The relevance matcher: the `most_relevant_chunk` selected by the loop of
`gift_converter.py` `main` (lines 320-331), starting from
`most_relevant_chunk = None`, `max_overlap = 0`. -/
def bestMatch (q : Line) (chunks : List Line) : Option Line :=
  (chunks.foldl (bestStep q) (none, 0)).1

/-- The per-question body of `gift_converter.py` `main` (lines 318-351):
match a context chunk, then convert; a question with no matching chunk is
still converted, with the empty context `""`.  `fb` abstracts the
network-backed `generate_feedback` call (a collaborator outside the core):
it maps a record and a context to the `(correct_feedback, wrong_feedback)`
pair. -/
def giftLoop (fb : QRec → Line → List Line × List Line) (chunks : List Line)
    (qs : List QRec) : List Line :=
  qs.map fun q =>
    match bestMatch q.question chunks with
    | some ctx => convertToGift q (fb q ctx).1 (fb q ctx).2
    | none => convertToGift q (fb q []).1 (fb q []).2
/-! ### Helper lemmas about the string primitives -/

theorem dropWhile_length_le (p : Char → Bool) (l : Line) :
    (l.dropWhile p).length ≤ l.length := by
  induction l with
  | nil => simp
  | cons c cs ih =>
    rw [List.dropWhile_cons]
    split
    · simp only [List.length_cons]
      omega
    · simp

theorem pstripR_length_le (l : Line) : (pstripR l).length ≤ l.length := by
  induction l with
  | nil => simp [pstripR]
  | cons c cs ih =>
    by_cases h : pstripR cs = []
    · rw [pstripR]
      simp [h]
      split <;> simp
    · rw [pstripR]
      simp [h]
      omega

theorem dropWhile_eq_of_length (p : Char → Bool) (l : Line)
    (h : (l.dropWhile p).length = l.length) : l.dropWhile p = l := by
  induction l with
  | nil => simp
  | cons c cs ih =>
    rw [List.dropWhile_cons]
    by_cases hc : p c
    · rw [List.dropWhile_cons, if_pos hc] at h
      have := dropWhile_length_le p cs
      simp at h
      omega
    · simp [hc]

theorem pstrip_eq_self (l : Line) (h : pstrip l = l) :
    pstripL l = l ∧ pstripR l = l := by
  have h1 : (pstripR (pstripL l)).length ≤ (pstripL l).length :=
    pstripR_length_le _
  have h2 : (pstripL l).length ≤ l.length := dropWhile_length_le pyws l
  have hlen : (pstrip l).length = l.length := by rw [h]
  rw [pstrip] at hlen
  have hLlen : (pstripL l).length = l.length := by omega
  have hL : pstripL l = l := dropWhile_eq_of_length pyws l hLlen
  refine ⟨hL, ?_⟩
  rw [pstrip, hL] at h
  exact h

theorem pstripL_cons_not (c : Char) (l : Line) (h : pyws c = false) :
    pstripL (c :: l) = c :: l := by
  simp [pstripL, List.dropWhile_cons, h]

theorem pstripR_cons_of_ne (c : Char) (l : Line) (h : pstripR l ≠ []) :
    pstripR (c :: l) = c :: pstripR l := by
  rw [pstripR]
  simp [h]

theorem pstripR_append_of_ne (l1 l2 : Line) (h : pstripR l2 ≠ []) :
    pstripR (l1 ++ l2) = l1 ++ pstripR l2 := by
  induction l1 with
  | nil => simp
  | cons c cs ih =>
    have hne : pstripR (cs ++ l2) ≠ [] := by
      rw [ih]
      simp [h]
    rw [List.cons_append, pstripR_cons_of_ne c _ hne, ih, List.cons_append]

theorem pstrip_space_cons (o : Line) (hL : pstripL o = o) (hR : pstripR o = o) :
    pstrip (' ' :: o) = o := by
  rw [pstrip]
  have : pstripL (' ' :: o) = pstripL o := by
    simp [pstripL, List.dropWhile_cons, pyws]
  rw [this, hL, hR]

theorem pstrip_of_parts (l : Line) (hL : pstripL l = l) (hR : pstripR l = l) :
    pstrip l = l := by
  rw [pstrip, hL, hR]

theorem pstrip_optline (c : Char) (hc : pyws c = false) (o : Line)
    (hL : pstripL o = o) (hR : pstripR o = o) :
    pstrip (c :: '.' :: ' ' :: o) =
      if o = [] then [c, '.'] else c :: '.' :: ' ' :: o := by
  rw [pstrip, pstripL_cons_not c _ hc]
  by_cases ho : o = []
  · subst ho
    rw [if_pos rfl]
    simp [pstripR, pyws, hc]
  · rw [if_neg ho]
    have hRo : pstripR o ≠ [] := by rw [hR]; exact ho
    have h1 : pstripR (' ' :: o) = ' ' :: pstripR o := pstripR_cons_of_ne _ _ hRo
    have h1' : pstripR (' ' :: o) ≠ [] := by rw [h1]; simp
    have h2 : pstripR ('.' :: ' ' :: o) = '.' :: pstripR (' ' :: o) :=
      pstripR_cons_of_ne _ _ h1'
    have h2' : pstripR ('.' :: ' ' :: o) ≠ [] := by rw [h2]; simp
    rw [pstripR_cons_of_ne _ _ h2', h2, h1, hR]

theorem splitC_ne_nil (sep : Char) (l : Line) : splitC sep l ≠ [] := by
  induction l with
  | nil => simp [splitC]
  | cons c cs ih =>
    rw [splitC]
    split <;> simp

theorem splitC_no_sep (sep : Char) (l : Line) (h : sep ∉ l) :
    splitC sep l = [l] := by
  induction l with
  | nil => rfl
  | cons c cs ih =>
    rw [splitC]
    have hc : ¬c = sep := by
      intro hx
      exact h (hx ▸ List.mem_cons_self c cs)
    have hcs : sep ∉ cs := fun hx => h (List.mem_cons_of_mem c hx)
    simp only [if_neg hc, ih hcs, List.headI, List.tail]

theorem splitC_sep_append (sep : Char) (l1 l2 : Line) (h1 : sep ∉ l1)
    (h2 : sep ∉ l2) : splitC sep (l1 ++ sep :: l2) = [l1, l2] := by
  induction l1 with
  | nil => simp [splitC, splitC_no_sep sep l2 h2]
  | cons c cs ih =>
    have hc : ¬c = sep := by
      intro hx
      exact h1 (hx ▸ List.mem_cons_self c cs)
    have hcs : sep ∉ cs := fun hx => h1 (List.mem_cons_of_mem c hx)
    rw [List.cons_append, splitC]
    simp only [if_neg hc, ih hcs, List.headI, List.tail]

theorem startsWithL_two (x y : Char) (l : Line)
    (h : startsWithL [x, y] l = true) : ∃ t, l = x :: y :: t := by
  match l with
  | [] => simp [startsWithL] at h
  | [c] => simp [startsWithL] at h
  | c :: d :: t =>
    rw [startsWithL, startsWithL] at h
    simp at h
    obtain ⟨hx, hy, -⟩ := h
    exact ⟨t, by rw [hx, hy]⟩

/-! ### Branch lemmas for the `load_questions` scanning loop -/

theorem loadStep_blank_none (acc : List QRec) :
    loadStep (none, acc) [] = (none, acc) := rfl

theorem loadStep_blank_flush (q : QRec) (acc : List QRec)
    (h4 : q.options.length = 4) :
    loadStep (some q, acc) [] = (none, acc ++ [q]) := by
  simp [loadStep, h4, show pstrip ([] : Line) = [] from rfl]

theorem loadStep_question (st1 : Option QRec) (acc : List QRec) (L : Line)
    (hne : pstrip L ≠ [])
    (hA : startsWithL "A.".data (pstrip L) = false)
    (hB : startsWithL "B.".data (pstrip L) = false)
    (hC : startsWithL "C.".data (pstrip L) = false)
    (hD : startsWithL "D.".data (pstrip L) = false)
    (hAns : startsWithL "ANSWER:".data (pstrip L) = false) :
    loadStep (st1, acc) L = (some ⟨pstrip L, [], none⟩, acc) := by
  simp [loadStep, hne, hA, hB, hC, hD, hAns]

theorem loadStep_answer (q : QRec) (acc : List QRec) (L : Line)
    (hne : pstrip L ≠ [])
    (hAns : startsWithL "ANSWER:".data (pstrip L) = true) :
    loadStep (some q, acc) L =
      (some { q with correct := some (ansTail (pstrip L)) }, acc) := by
  simp [loadStep, hne, hAns, ansTail]

theorem loadStep_opt (q : QRec) (acc : List QRec) (L : Line) (c : Char)
    (t : Line) (hc : c ∈ (['A', 'B', 'C', 'D'] : List Char))
    (hL : pstrip L = c :: '.' :: t) :
    loadStep (some q, acc) L =
      (some { q with options := q.options ++ [pstrip t] }, acc) := by
  fin_cases hc <;>
    simp [loadStep, hL, startsWithL, show "A.".data = ['A', '.'] from rfl,
      show "B.".data = ['B', '.'] from rfl,
      show "C.".data = ['C', '.'] from rfl,
      show "D.".data = ['D', '.'] from rfl,
      show "ANSWER:".data = ['A', 'N', 'S', 'W', 'E', 'R', ':'] from rfl]

theorem loadStep_optline (st : QRec) (acc : List QRec) (c : Char)
    (hc : c ∈ (['A', 'B', 'C', 'D'] : List Char)) (hcw : pyws c = false)
    (o : Line) (hL : pstripL o = o) (hR : pstripR o = o) :
    loadStep (some st, acc) (c :: '.' :: ' ' :: o) =
      (some { st with options := st.options ++ [o] }, acc) := by
  have hstrip := pstrip_optline c hcw o hL hR
  by_cases ho : o = []
  · subst ho
    rw [if_pos rfl] at hstrip
    rw [loadStep_opt st acc _ c [] hc hstrip,
      show pstrip ([] : Line) = [] from rfl]
  · rw [if_neg ho] at hstrip
    rw [loadStep_opt st acc _ c (' ' :: o) hc hstrip,
      pstrip_space_cons o hL hR]

theorem loadStep_answer_tail (st : QRec) (acc : List QRec) (s : Line)
    (hsL : pstripL s = s) (hsR : pstripR s = s) (hsne : s ≠ [])
    (hcol : ':' ∉ s) :
    loadStep (some st, acc) ("ANSWER: ".data ++ s) =
      (some { st with correct := some s }, acc) := by
  have hRs : pstripR s ≠ [] := by rw [hsR]; exact hsne
  have hstrip : pstrip ("ANSWER: ".data ++ s) = "ANSWER: ".data ++ s := by
    rw [pstrip]
    have h1 : pstripL ("ANSWER: ".data ++ s) = "ANSWER: ".data ++ s := by
      rw [show "ANSWER: ".data ++ s = 'A' :: ("NSWER: ".data ++ s) from rfl]
      exact pstripL_cons_not 'A' _ (by decide)
    rw [h1, pstripR_append_of_ne _ _ hRs, hsR]
  have hans : startsWithL "ANSWER:".data (pstrip ("ANSWER: ".data ++ s))
      = true := by
    rw [hstrip]
    simp [startsWithL,
      show "ANSWER: ".data = ['A', 'N', 'S', 'W', 'E', 'R', ':', ' '] from rfl,
      show "ANSWER:".data = ['A', 'N', 'S', 'W', 'E', 'R', ':'] from rfl]
  have hne : pstrip ("ANSWER: ".data ++ s) ≠ [] := by
    rw [hstrip]
    simp [show "ANSWER: ".data = ['A', 'N', 'S', 'W', 'E', 'R', ':', ' ']
      from rfl]
  rw [loadStep_answer st acc _ hne hans, hstrip]
  have hsplit : splitC ':' ("ANSWER: ".data ++ s) = ["ANSWER".data, ' ' :: s] := by
    rw [show "ANSWER: ".data ++ s = "ANSWER".data ++ ':' :: (' ' :: s) from rfl]
    exact splitC_sep_append ':' _ _ (by decide) (by
      intro hx
      rcases List.mem_cons.mp hx with h | h
      · exact absurd h.symm (by decide)
      · exact hcol h)
  rw [show ansTail ("ANSWER: ".data ++ s)
      = pstrip ((splitC ':' ("ANSWER: ".data ++ s)).getD 1 []) from rfl,
    hsplit]
  simp [pstrip_space_cons s hsL hsR]

theorem list_length_four {α : Type} {l : List α} (h : l.length = 4) :
    ∃ a b c d, l = [a, b, c, d] := by
  rcases l with _ | ⟨a, _ | ⟨b, _ | ⟨c, _ | ⟨d, _ | ⟨e, t⟩⟩⟩⟩⟩ <;> simp at h
  exact ⟨a, b, c, d, rfl⟩

/-- Well-formedness of a record for the amended round-trip claim: the
question and each option equal their own `strip()`, the question is
non-empty, is not mistakable for an option or answer line, everything is a
single line, there are exactly 4 options, and the correct letter is one of
`A`-`D`. -/
def WfRec (r : QRec) : Prop :=
  pstrip r.question = r.question ∧ r.question ≠ [] ∧
  startsWithL "A.".data r.question = false ∧
  startsWithL "B.".data r.question = false ∧
  startsWithL "C.".data r.question = false ∧
  startsWithL "D.".data r.question = false ∧
  startsWithL "ANSWER:".data r.question = false ∧
  '\n' ∉ r.question ∧
  r.options.length = 4 ∧
  (∀ o ∈ r.options, pstrip o = o ∧ '\n' ∉ o) ∧
  (r.correct = some "A".data ∨ r.correct = some "B".data ∨
    r.correct = some "C".data ∨ r.correct = some "D".data)

instance (r : QRec) : Decidable (WfRec r) := by
  unfold WfRec
  infer_instance

theorem foldl_saveBlock (acc : List QRec) (r : QRec) (h : WfRec r) :
    List.foldl loadStep (none, acc) (saveLines r) = (none, acc ++ [r]) := by
  obtain ⟨hq, hqne, hA, hB, hC, hD, hAns, -, h4, hopts, hcorr⟩ := h
  obtain ⟨o0, o1, o2, o3, heq⟩ := list_length_four h4
  obtain ⟨q, opts, corr⟩ := r
  simp only at heq hq hqne hA hB hC hD hAns hopts hcorr
  subst heq
  have w0 := pstrip_eq_self o0 (hopts o0 (by simp)).1
  have w1 := pstrip_eq_self o1 (hopts o1 (by simp)).1
  have w2 := pstrip_eq_self o2 (hopts o2 (by simp)).1
  have w3 := pstrip_eq_self o3 (hopts o3 (by simp)).1
  have e0 : loadStep (none, acc) q = (some ⟨q, [], none⟩, acc) := by
    rw [loadStep_question none acc q (by rw [hq]; exact hqne) (by rw [hq]; exact hA)
      (by rw [hq]; exact hB) (by rw [hq]; exact hC) (by rw [hq]; exact hD)
      (by rw [hq]; exact hAns), hq]
  have hblock : saveLines ⟨q, [o0, o1, o2, o3], corr⟩ =
      [q, 'A' :: '.' :: ' ' :: o0, 'B' :: '.' :: ' ' :: o1,
        'C' :: '.' :: ' ' :: o2, 'D' :: '.' :: ' ' :: o3,
        "ANSWER: ".data ++ showCorrect corr, []] := rfl
  rw [hblock]
  simp only [List.foldl_cons, List.foldl_nil]
  rw [e0,
    loadStep_optline _ acc 'A' (by decide) (by decide) o0 w0.1 w0.2,
    loadStep_optline _ acc 'B' (by decide) (by decide) o1 w1.1 w1.2,
    loadStep_optline _ acc 'C' (by decide) (by decide) o2 w2.1 w2.2,
    loadStep_optline _ acc 'D' (by decide) (by decide) o3 w3.1 w3.2]
  have hansstep : ∀ s : Line, corr = some s →
      pstripL s = s → pstripR s = s → s ≠ [] → ':' ∉ s →
      loadStep
        (some ⟨q, [] ++ [o0] ++ [o1] ++ [o2] ++ [o3], none⟩, acc)
        ("ANSWER: ".data ++ showCorrect corr) =
      (some ⟨q, [o0, o1, o2, o3], some s⟩, acc) := by
    intro s hcs hL hR hne hcol
    rw [hcs]
    exact loadStep_answer_tail _ acc s hL hR hne hcol
  rcases hcorr with hcs | hcs | hcs | hcs <;>
    rw [hansstep _ hcs (by decide) (by decide) (by decide) (by decide),
      loadStep_blank_flush _ acc (by simp), hcs]

theorem saveQuestions_cons (r : QRec) (rs : List QRec) :
    saveQuestions (r :: rs) = saveLines r ++ saveQuestions rs := by
  simp [saveQuestions]

theorem foldl_saveQuestions (rs : List QRec) (h : ∀ r ∈ rs, WfRec r) :
    ∀ acc, List.foldl loadStep (none, acc) (saveQuestions rs) =
      (none, acc ++ rs) := by
  induction rs with
  | nil =>
    intro acc
    simp [saveQuestions]
  | cons r rs ih =>
    intro acc
    rw [saveQuestions_cons, List.foldl_append,
      foldl_saveBlock acc r (h r (List.mem_cons_self r rs)),
      ih (fun x hx => h x (List.mem_cons_of_mem r hx)) (acc ++ [r])]
    simp

/-- Concrete input showing the round-trip claim fails as stated: the first
record's question starts with `ANSWER:` (which is not an option-letter
prefix), the second carries surrounding whitespace. -/
def c1Input : List QRec :=
  [⟨"ANSWER: why is this here".data,
    ["a1".data, "b1".data, "c1".data, "d1".data], some "A".data⟩,
   ⟨" spaced question".data,
    ["a2".data, "b2".data, "c2".data, "d2".data], some "B".data⟩]

/-- C1, counterexample: both records of `c1Input` satisfy every condition
the claim places on a record (non-empty single-line question not starting
with an option-letter prefix `A.`/`B.`/`C.`/`D.`, exactly 4 single-line
options, correct letter in `A`-`D`), yet serializing and re-parsing does not
reproduce the list: the first record disappears (its question line is taken
for an `ANSWER:` line) and the second comes back with its question
whitespace-stripped. -/
theorem c1_roundtrip_counterexample :
    (∀ r ∈ c1Input, r.question ≠ [] ∧ '\n' ∉ r.question ∧
      startsWithL "A.".data r.question = false ∧
      startsWithL "B.".data r.question = false ∧
      startsWithL "C.".data r.question = false ∧
      startsWithL "D.".data r.question = false ∧
      r.options.length = 4 ∧ (∀ o ∈ r.options, '\n' ∉ o) ∧
      (r.correct = some "A".data ∨ r.correct = some "B".data ∨
        r.correct = some "C".data ∨ r.correct = some "D".data)) ∧
    loadQuestions (saveQuestions c1Input) ≠ c1Input := by
  decide

/-- C1, amended: plain-mode round trip holds for every list of complete
records once the question and options are additionally required to equal
their own `strip()` and the question must not start with `ANSWER:` either —
then parsing the serialized lines returns exactly the input records. -/
theorem c1_roundtrip_amended (rs : List QRec) (h : ∀ r ∈ rs, WfRec r) :
    loadQuestions (saveQuestions rs) = rs := by
  have h0 := foldl_saveQuestions rs h []
  simp only [loadQuestions]
  rw [h0]
  simp

/-- A concrete well-formed two-record list for the round-trip witness. -/
def c1WitnessInput : List QRec :=
  [⟨"What does article 1 state".data,
    ["birth".data, "conception".data, "age 18".data, "registry".data],
    some "B".data⟩,
   ⟨"When does capacity begin".data,
    ["x".data, "y".data, "z".data, "w".data], some "D".data⟩]

/-- C1, witness: the amended round trip at a concrete two-record list. -/
theorem c1_roundtrip_witness :
    (∀ r ∈ c1WitnessInput, WfRec r) ∧
      loadQuestions (saveQuestions c1WitnessInput) = c1WitnessInput :=
  ⟨by decide, c1_roundtrip_amended c1WitnessInput (by decide)⟩

theorem loadQuestions_of_foldl_none (lines : List Line) (qs : List QRec)
    (h : List.foldl loadStep (none, []) lines = (none, qs)) :
    loadQuestions lines = qs := by
  unfold loadQuestions
  rw [h]

theorem loadQuestions_of_foldl_some (lines : List Line) (q : QRec)
    (qs : List QRec) (h : List.foldl loadStep (none, []) lines = (some q, qs))
    (h4 : q.options.length = 4) :
    loadQuestions lines = qs ++ [q] := by
  unfold loadQuestions
  rw [h]
  simp [h4]

/-- A block whose `ANSWER:` line carries the letter `E` (not one of `A`-`D`). -/
def c3BadAnswerInput : List Line :=
  ["Q1".data, "A. x".data, "B. y".data, "C. z".data, "D. w".data,
   "ANSWER: E".data, []]

/-- A block with four options and no `ANSWER:` line at all. -/
def c3NoAnswerInput : List Line :=
  ["Q1".data, "A. x".data, "B. y".data, "C. z".data, "D. w".data]

/-- C3, counterexample: `load_questions` includes a 4-option block whose
`ANSWER:` letter is `E` (storing `correct = "E"`), and also a 4-option block
with no `ANSWER:` line at all (leaving `correct` unset); neither block
"fails to parse". -/
theorem c3_flush_counterexample :
    loadQuestions c3BadAnswerInput =
      [⟨"Q1".data, ["x".data, "y".data, "z".data, "w".data],
        some "E".data⟩] ∧
    loadQuestions c3BadAnswerInput ≠ [] ∧
    loadQuestions c3NoAnswerInput =
      [⟨"Q1".data, ["x".data, "y".data, "z".data, "w".data], none⟩] ∧
    loadQuestions c3NoAnswerInput ≠ [] := by
  decide

/-- C3, amended: at a blank-line flush or at end of input, `load_questions`
includes the accumulated record as soon as it has exactly 4 options; the
`correct` field is not validated at all.  A block whose `ANSWER:` line
carries an arbitrary non-empty colon-free tail `s` is included with
`correct = s` (whether or not `s` is one of `A`-`D`), and a block with no
`ANSWER:` line is included with `correct` unset.  (The only answer
validation in the repository is in the generation-mode parser
`_parse_question`.) -/
theorem c3_flush_amended (q o0 o1 o2 o3 s : Line)
    (hq : pstrip q = q) (hqne : q ≠ [])
    (hA : startsWithL "A.".data q = false)
    (hB : startsWithL "B.".data q = false)
    (hC : startsWithL "C.".data q = false)
    (hD : startsWithL "D.".data q = false)
    (hAns : startsWithL "ANSWER:".data q = false)
    (h0 : pstrip o0 = o0) (h1 : pstrip o1 = o1)
    (h2 : pstrip o2 = o2) (h3 : pstrip o3 = o3)
    (hs : pstrip s = s) (hsne : s ≠ []) (hcol : ':' ∉ s) :
    loadQuestions [q, 'A' :: '.' :: ' ' :: o0, 'B' :: '.' :: ' ' :: o1,
        'C' :: '.' :: ' ' :: o2, 'D' :: '.' :: ' ' :: o3,
        "ANSWER: ".data ++ s, []] =
      [⟨q, [o0, o1, o2, o3], some s⟩] ∧
    loadQuestions [q, 'A' :: '.' :: ' ' :: o0, 'B' :: '.' :: ' ' :: o1,
        'C' :: '.' :: ' ' :: o2, 'D' :: '.' :: ' ' :: o3] =
      [⟨q, [o0, o1, o2, o3], none⟩] := by
  have w0 := pstrip_eq_self o0 h0
  have w1 := pstrip_eq_self o1 h1
  have w2 := pstrip_eq_self o2 h2
  have w3 := pstrip_eq_self o3 h3
  have ws := pstrip_eq_self s hs
  have e0 : ∀ st1 : Option QRec, loadStep (st1, ([] : List QRec)) q =
      (some ⟨q, [], none⟩, []) := fun st1 => by
    rw [loadStep_question st1 [] q (by rw [hq]; exact hqne)
      (by rw [hq]; exact hA) (by rw [hq]; exact hB) (by rw [hq]; exact hC)
      (by rw [hq]; exact hD) (by rw [hq]; exact hAns), hq]
  constructor
  · apply loadQuestions_of_foldl_none
    simp only [List.foldl_cons, List.foldl_nil]
    rw [e0 none,
      loadStep_optline _ [] 'A' (by decide) (by decide) o0 w0.1 w0.2,
      loadStep_optline _ [] 'B' (by decide) (by decide) o1 w1.1 w1.2,
      loadStep_optline _ [] 'C' (by decide) (by decide) o2 w2.1 w2.2,
      loadStep_optline _ [] 'D' (by decide) (by decide) o3 w3.1 w3.2,
      loadStep_answer_tail _ [] s ws.1 ws.2 hsne hcol,
      loadStep_blank_flush _ [] (by simp)]
    simp
  · rw [show ([⟨q, [o0, o1, o2, o3], none⟩] : List QRec) =
      [] ++ [⟨q, [o0, o1, o2, o3], none⟩] from rfl]
    apply loadQuestions_of_foldl_some _ _ _ ?_ (by simp)
    simp only [List.foldl_cons, List.foldl_nil]
    rw [e0 none,
      loadStep_optline _ [] 'A' (by decide) (by decide) o0 w0.1 w0.2,
      loadStep_optline _ [] 'B' (by decide) (by decide) o1 w1.1 w1.2,
      loadStep_optline _ [] 'C' (by decide) (by decide) o2 w2.1 w2.2,
      loadStep_optline _ [] 'D' (by decide) (by decide) o3 w3.1 w3.2]
    simp

/-- C3, witness: the amended statement applied with the invalid answer
letter `E` and concrete question and options. -/
theorem c3_flush_witness :
    loadQuestions ["Q1".data, "A. x".data, "B. y".data, "C. z".data,
        "D. w".data, "ANSWER: E".data, []] =
      [⟨"Q1".data, ["x".data, "y".data, "z".data, "w".data],
        some "E".data⟩] ∧
    loadQuestions ["Q1".data, "A. x".data, "B. y".data, "C. z".data,
        "D. w".data] =
      [⟨"Q1".data, ["x".data, "y".data, "z".data, "w".data], none⟩] := by
  have h := c3_flush_amended "Q1".data "x".data "y".data "z".data "w".data
    "E".data (by decide) (by decide) (by decide) (by decide) (by decide)
    (by decide) (by decide) (by decide) (by decide) (by decide) (by decide)
    (by decide) (by decide) (by decide)
  exact ⟨by
      rw [show ("A. x".data : Line) = 'A' :: '.' :: ' ' :: "x".data from rfl,
        show ("B. y".data : Line) = 'B' :: '.' :: ' ' :: "y".data from rfl,
        show ("C. z".data : Line) = 'C' :: '.' :: ' ' :: "z".data from rfl,
        show ("D. w".data : Line) = 'D' :: '.' :: ' ' :: "w".data from rfl,
        show ("ANSWER: E".data : Line) = "ANSWER: ".data ++ "E".data from rfl]
      exact h.1,
    by
      rw [show ("A. x".data : Line) = 'A' :: '.' :: ' ' :: "x".data from rfl,
        show ("B. y".data : Line) = 'B' :: '.' :: ' ' :: "y".data from rfl,
        show ("C. z".data : Line) = 'C' :: '.' :: ' ' :: "z".data from rfl,
        show ("D. w".data : Line) = 'D' :: '.' :: ' ' :: "w".data from rfl]
      exact h.2⟩

theorem regex_false_of_startsWith (L : Line)
    (hA : startsWithL "A.".data L = false)
    (hB : startsWithL "B.".data L = false)
    (hC : startsWithL "C.".data L = false)
    (hD : startsWithL "D.".data L = false) :
    ((['A', 'B', 'C', 'D'] : List Char).contains (L.getD 0 '?')
      && L.getD 1 '?' = '.') = false := by
  match L with
  | [] => decide
  | [a] => simp [List.getD]
  | a :: b :: t =>
    simp [startsWithL,
      show "A.".data = ['A', '.'] from rfl,
      show "B.".data = ['B', '.'] from rfl,
      show "C.".data = ['C', '.'] from rfl,
      show "D.".data = ['D', '.'] from rfl] at hA hB hC hD
    by_cases hb : b = '.'
    · subst hb
      simp at hA hB hC hD
      simp [List.getD]
      exact ⟨fun h => hA h.symm, fun h => hB h.symm, fun h => hC h.symm,
        fun h => hD h.symm⟩
    · simp [List.getD, hb]

theorem pstrip_answer_line (s : Line) (hsR : pstripR s = s) (hsne : s ≠ []) :
    pstrip ("ANSWER: ".data ++ s) = "ANSWER: ".data ++ s := by
  have hRs : pstripR s ≠ [] := by rw [hsR]; exact hsne
  rw [pstrip]
  have h1 : pstripL ("ANSWER: ".data ++ s) = "ANSWER: ".data ++ s := by
    rw [show "ANSWER: ".data ++ s = 'A' :: ("NSWER: ".data ++ s) from rfl]
    exact pstripL_cons_not 'A' _ (by decide)
  rw [h1, pstripR_append_of_ne _ _ hRs, hsR]

theorem startsWith_answer_append (s : Line) :
    startsWithL "ANSWER:".data ("ANSWER: ".data ++ s) = true := by
  simp [startsWithL,
    show "ANSWER: ".data = ['A', 'N', 'S', 'W', 'E', 'R', ':', ' '] from rfl,
    show "ANSWER:".data = ['A', 'N', 'S', 'W', 'E', 'R', ':'] from rfl]

theorem pqStep_question (st : PQComponents) (hio : st.inOpts = false)
    (L : Line) (hq : pstrip L = L) (hne : L ≠ [])
    (hA : startsWithL "A.".data L = false)
    (hB : startsWithL "B.".data L = false)
    (hC : startsWithL "C.".data L = false)
    (hD : startsWithL "D.".data L = false)
    (hAns : startsWithL "ANSWER:".data L = false) :
    pqStep st L = { st with qlines := st.qlines ++ [L] } := by
  have hreg := regex_false_of_startsWith L hA hB hC hD
  simp [pqStep, hq, hne, hAns, hio]
  simpa using hreg

/-- The line that the parsers store for the raw option line
`"<c>. <o>"` after stripping: `"<c>."` when the option text is empty,
the full line otherwise. -/
def optStoredLine (c : Char) (o : Line) : Line :=
  if o = [] then [c, '.'] else c :: '.' :: ' ' :: o

theorem pqStep_optline (st : PQComponents) (c : Char)
    (hc : c ∈ (['A', 'B', 'C', 'D'] : List Char)) (hcw : pyws c = false)
    (o : Line) (hL : pstripL o = o) (hR : pstripR o = o) :
    pqStep st (c :: '.' :: ' ' :: o) =
      { st with inOpts := true, opts := st.opts ++ [optStoredLine c o] } := by
  have hstrip := pstrip_optline c hcw o hL hR
  fin_cases hc <;> by_cases ho : o = [] <;>
    simp_all [pqStep, startsWithL, optStoredLine,
      show "ANSWER:".data = ['A', 'N', 'S', 'W', 'E', 'R', ':'] from rfl]

theorem pqStep_answer (st : PQComponents) (s : Line)
    (hsR : pstripR s = s) (hsne : s ≠ []) :
    pqStep st ("ANSWER: ".data ++ s) =
      { st with answer := some ("ANSWER: ".data ++ s) } := by
  have hstrip : pstrip ('A' :: 'N' :: 'S' :: 'W' :: 'E' :: 'R' :: ':' :: ' ' :: s)
      = 'A' :: 'N' :: 'S' :: 'W' :: 'E' :: 'R' :: ':' :: ' ' :: s :=
    pstrip_answer_line s hsR hsne
  have hans : startsWithL "ANSWER:".data
      ('A' :: 'N' :: 'S' :: 'W' :: 'E' :: 'R' :: ':' :: ' ' :: s) = true :=
    startsWith_answer_append s
  show pqStep st ('A' :: 'N' :: 'S' :: 'W' :: 'E' :: 'R' :: ':' :: ' ' :: s) = _
  simp [pqStep, hstrip, hans]

theorem odictInsert_optline (dct : ODict) (c : Char)
    (hc : c ∈ (['A', 'B', 'C', 'D'] : List Char)) (o : Line)
    (hL : pstripL o = o) (hR : pstripR o = o) :
    odictInsert dct (optStoredLine c o) =
      some (if c = 'A' then { dct with a := some o }
        else if c = 'B' then { dct with b := some o }
        else if c = 'C' then { dct with c := some o }
        else { dct with d := some o }) := by
  have hsp := pstrip_space_cons o hL hR
  fin_cases hc <;> by_cases ho : o = [] <;>
    simp_all [odictInsert, optStoredLine,
      show pstrip ([] : Line) = [] from rfl,
      show "A.".data = ['A', '.'] from rfl,
      show "B.".data = ['B', '.'] from rfl,
      show "C.".data = ['C', '.'] from rfl,
      show "D.".data = ['D', '.'] from rfl]

theorem parseQuestion_acbd (q x y z w : Line)
    (hq : pstrip q = q) (hqne : q ≠ [])
    (hA : startsWithL "A.".data q = false)
    (hB : startsWithL "B.".data q = false)
    (hC : startsWithL "C.".data q = false)
    (hD : startsWithL "D.".data q = false)
    (hAns : startsWithL "ANSWER:".data q = false)
    (hx : pstrip x = x) (hy : pstrip y = y)
    (hz : pstrip z = z) (hw : pstrip w = w) :
    parseQuestion [q, 'A' :: '.' :: ' ' :: x, 'C' :: '.' :: ' ' :: y,
        'B' :: '.' :: ' ' :: z, 'D' :: '.' :: ' ' :: w,
        "ANSWER: ".data ++ ['A']] =
      some ⟨q, [x, z, y, w], some ['A']⟩ := by
  obtain ⟨hxL, hxR⟩ := pstrip_eq_self x hx
  obtain ⟨hyL, hyR⟩ := pstrip_eq_self y hy
  obtain ⟨hzL, hzR⟩ := pstrip_eq_self z hz
  obtain ⟨hwL, hwR⟩ := pstrip_eq_self w hw
  have hfold : List.foldl pqStep ⟨[], [], none, false⟩
      [q, 'A' :: '.' :: ' ' :: x, 'C' :: '.' :: ' ' :: y,
        'B' :: '.' :: ' ' :: z, 'D' :: '.' :: ' ' :: w,
        "ANSWER: ".data ++ ['A']] =
      ⟨[q], [optStoredLine 'A' x, optStoredLine 'C' y, optStoredLine 'B' z,
        optStoredLine 'D' w], some ("ANSWER: ".data ++ ['A']), true⟩ := by
    simp only [List.foldl_cons, List.foldl_nil]
    rw [pqStep_question _ rfl q hq hqne hA hB hC hD hAns,
      pqStep_optline _ 'A' (by decide) (by decide) x hxL hxR,
      pqStep_optline _ 'C' (by decide) (by decide) y hyL hyR,
      pqStep_optline _ 'B' (by decide) (by decide) z hzL hzR,
      pqStep_optline _ 'D' (by decide) (by decide) w hwL hwR,
      pqStep_answer _ ['A'] (by decide) (by decide)]
    simp
  rw [parseQuestion, hfold]
  have hd1 : odictInsert ⟨none, none, none, none⟩ (optStoredLine 'A' x) =
      some ⟨some x, none, none, none⟩ := by
    have h := odictInsert_optline ⟨none, none, none, none⟩ 'A' (by decide)
      x hxL hxR
    simpa using h
  have hd2 : odictInsert ⟨some x, none, none, none⟩ (optStoredLine 'C' y) =
      some ⟨some x, none, some y, none⟩ := by
    have h := odictInsert_optline ⟨some x, none, none, none⟩ 'C' (by decide)
      y hyL hyR
    simpa using h
  have hd3 : odictInsert ⟨some x, none, some y, none⟩ (optStoredLine 'B' z) =
      some ⟨some x, some z, some y, none⟩ := by
    have h := odictInsert_optline ⟨some x, none, some y, none⟩ 'B' (by decide)
      z hzL hzR
    simpa using h
  have hd4 : odictInsert ⟨some x, some z, some y, none⟩ (optStoredLine 'D' w) =
      some ⟨some x, some z, some y, some w⟩ := by
    have h := odictInsert_optline ⟨some x, some z, some y, none⟩ 'D'
      (by decide) w hwL hwR
    simpa using h
  have hletter :
      answerLetter ['A', 'N', 'S', 'W', 'E', 'R', ':', ' ', 'A'] = some 'A' := by
    decide
  have hjoin : List.intercalate [' '] [q] = q := by
    simp [List.intercalate]
  simp [pqFinish, List.foldlM, hd1, hd2, hd3, hd4, hletter, hjoin, hq]

/-- A file with an out-of-order block (`A.`, `C.`, `B.`, `D.`) followed by a
well-formed block. -/
def c2Input : List Line :=
  ["Q1".data, "A. x".data, "C. y".data, "B. z".data, "D. w".data,
   "ANSWER: A".data, [],
   "Q2".data, "A. p".data, "B. q".data, "C. r".data, "D. t".data,
   "ANSWER: D".data, []]

/-- C2, counterexample: the out-of-order block is NOT rejected by either
parser in the source.  `load_questions` keeps it (options in encounter
order), so the result has two records, not one; and `_parse_question`
accepts the same block, silently reordering the options by their letter. -/
theorem c2_order_counterexample :
    loadQuestions c2Input =
      [⟨"Q1".data, ["x".data, "y".data, "z".data, "w".data], some "A".data⟩,
       ⟨"Q2".data, ["p".data, "q".data, "r".data, "t".data], some "D".data⟩] ∧
    parseQuestion ["Q1".data, "A. x".data, "C. y".data, "B. z".data,
        "D. w".data, "ANSWER: A".data] =
      some ⟨"Q1".data, ["x".data, "z".data, "y".data, "w".data],
        some "A".data⟩ := by
  decide

/-- C2, amended: no parser in the source rejects a block whose four option
lines carry the prefixes `A.`, `C.`, `B.`, `D.` out of order.  For every
such block (arbitrary stripped question and option texts):
`load_questions` extracts it with the options in encounter order, alongside
the well-formed block elsewhere in the same input; and the generation-mode
parser `_parse_question` accepts it, reordering the options by their prefix
letter into `A`,`B`,`C`,`D` order. -/
theorem c2_order_amended (q1 q2 x y z w p0 p1 p2 p3 : Line)
    (hq1 : pstrip q1 = q1) (hq1ne : q1 ≠ [])
    (h1A : startsWithL "A.".data q1 = false)
    (h1B : startsWithL "B.".data q1 = false)
    (h1C : startsWithL "C.".data q1 = false)
    (h1D : startsWithL "D.".data q1 = false)
    (h1Ans : startsWithL "ANSWER:".data q1 = false)
    (hq2 : pstrip q2 = q2) (hq2ne : q2 ≠ [])
    (h2A : startsWithL "A.".data q2 = false)
    (h2B : startsWithL "B.".data q2 = false)
    (h2C : startsWithL "C.".data q2 = false)
    (h2D : startsWithL "D.".data q2 = false)
    (h2Ans : startsWithL "ANSWER:".data q2 = false)
    (hx : pstrip x = x) (hy : pstrip y = y)
    (hz : pstrip z = z) (hw : pstrip w = w)
    (hp0 : pstrip p0 = p0) (hp1 : pstrip p1 = p1)
    (hp2 : pstrip p2 = p2) (hp3 : pstrip p3 = p3) :
    loadQuestions [q1, 'A' :: '.' :: ' ' :: x, 'C' :: '.' :: ' ' :: y,
        'B' :: '.' :: ' ' :: z, 'D' :: '.' :: ' ' :: w,
        "ANSWER: ".data ++ ['A'], [],
        q2, 'A' :: '.' :: ' ' :: p0, 'B' :: '.' :: ' ' :: p1,
        'C' :: '.' :: ' ' :: p2, 'D' :: '.' :: ' ' :: p3,
        "ANSWER: ".data ++ ['D'], []] =
      [⟨q1, [x, y, z, w], some ['A']⟩, ⟨q2, [p0, p1, p2, p3], some ['D']⟩] ∧
    parseQuestion [q1, 'A' :: '.' :: ' ' :: x, 'C' :: '.' :: ' ' :: y,
        'B' :: '.' :: ' ' :: z, 'D' :: '.' :: ' ' :: w,
        "ANSWER: ".data ++ ['A']] =
      some ⟨q1, [x, z, y, w], some ['A']⟩ := by
  obtain ⟨hxL, hxR⟩ := pstrip_eq_self x hx
  obtain ⟨hyL, hyR⟩ := pstrip_eq_self y hy
  obtain ⟨hzL, hzR⟩ := pstrip_eq_self z hz
  obtain ⟨hwL, hwR⟩ := pstrip_eq_self w hw
  obtain ⟨hp0L, hp0R⟩ := pstrip_eq_self p0 hp0
  obtain ⟨hp1L, hp1R⟩ := pstrip_eq_self p1 hp1
  obtain ⟨hp2L, hp2R⟩ := pstrip_eq_self p2 hp2
  obtain ⟨hp3L, hp3R⟩ := pstrip_eq_self p3 hp3
  constructor
  · apply loadQuestions_of_foldl_none
    simp only [List.foldl_cons, List.foldl_nil]
    rw [loadStep_question none [] q1 (by rw [hq1]; exact hq1ne)
        (by rw [hq1]; exact h1A) (by rw [hq1]; exact h1B)
        (by rw [hq1]; exact h1C) (by rw [hq1]; exact h1D)
        (by rw [hq1]; exact h1Ans), hq1,
      loadStep_optline _ [] 'A' (by decide) (by decide) x hxL hxR,
      loadStep_optline _ [] 'C' (by decide) (by decide) y hyL hyR,
      loadStep_optline _ [] 'B' (by decide) (by decide) z hzL hzR,
      loadStep_optline _ [] 'D' (by decide) (by decide) w hwL hwR,
      loadStep_answer_tail _ [] ['A'] (by decide) (by decide) (by decide)
        (by decide),
      loadStep_blank_flush _ [] (by simp)]
    rw [loadStep_question none _ q2 (by rw [hq2]; exact hq2ne)
        (by rw [hq2]; exact h2A) (by rw [hq2]; exact h2B)
        (by rw [hq2]; exact h2C) (by rw [hq2]; exact h2D)
        (by rw [hq2]; exact h2Ans), hq2,
      loadStep_optline _ _ 'A' (by decide) (by decide) p0 hp0L hp0R,
      loadStep_optline _ _ 'B' (by decide) (by decide) p1 hp1L hp1R,
      loadStep_optline _ _ 'C' (by decide) (by decide) p2 hp2L hp2R,
      loadStep_optline _ _ 'D' (by decide) (by decide) p3 hp3L hp3R,
      loadStep_answer_tail _ _ ['D'] (by decide) (by decide) (by decide)
        (by decide),
      loadStep_blank_flush _ _ (by simp)]
    simp
  · exact parseQuestion_acbd q1 x y z w hq1 hq1ne h1A h1B h1C h1D h1Ans
      hx hy hz hw

/-- C2, witness: the amended statement at concrete question and option
texts. -/
theorem c2_order_witness :
    loadQuestions ["Q1".data, 'A' :: '.' :: ' ' :: "x".data,
        'C' :: '.' :: ' ' :: "y".data, 'B' :: '.' :: ' ' :: "z".data,
        'D' :: '.' :: ' ' :: "w".data, "ANSWER: ".data ++ ['A'], [],
        "Q2".data, 'A' :: '.' :: ' ' :: "p".data,
        'B' :: '.' :: ' ' :: "q".data, 'C' :: '.' :: ' ' :: "r".data,
        'D' :: '.' :: ' ' :: "t".data, "ANSWER: ".data ++ ['D'], []] =
      [⟨"Q1".data, ["x".data, "y".data, "z".data, "w".data], some ['A']⟩,
       ⟨"Q2".data, ["p".data, "q".data, "r".data, "t".data], some ['D']⟩] ∧
    parseQuestion ["Q1".data, 'A' :: '.' :: ' ' :: "x".data,
        'C' :: '.' :: ' ' :: "y".data, 'B' :: '.' :: ' ' :: "z".data,
        'D' :: '.' :: ' ' :: "w".data, "ANSWER: ".data ++ ['A']] =
      some ⟨"Q1".data, ["x".data, "z".data, "y".data, "w".data],
        some ['A']⟩ :=
  c2_order_amended "Q1".data "Q2".data "x".data "y".data "z".data "w".data
    "p".data "q".data "r".data "t".data (by decide) (by decide) (by decide)
    (by decide) (by decide) (by decide) (by decide) (by decide) (by decide)
    (by decide) (by decide) (by decide) (by decide) (by decide) (by decide)
    (by decide) (by decide) (by decide) (by decide) (by decide) (by decide)
    (by decide)

/-! ### Relevance matcher -/

theorem bestMatch_stay (q : Line) (b : Line) (m : Nat) (cs : List Line)
    (h : ∀ c ∈ cs, wordOverlap q c ≤ m) :
    List.foldl (bestStep q) (some b, m) cs = (some b, m) := by
  induction cs with
  | nil => rfl
  | cons c cs ih =>
    rw [List.foldl_cons]
    have hc : wordOverlap q c ≤ m := h c (List.mem_cons_self c cs)
    rw [show bestStep q (some b, m) c = (some b, m) from by
      simp [bestStep]
      omega]
    exact ih fun c' hc' => h c' (List.mem_cons_of_mem c hc')

/-- C4: the relevance loop updates only on a strictly greater overlap score,
so among equally-scored chunks the first encountered wins: whenever the
first chunk has positive score and no later chunk scores strictly higher
(ties included), `best_match` returns the first chunk. -/
theorem c4_tiebreak_first (q c : Line) (cs : List Line)
    (h0 : 0 < wordOverlap q c)
    (hle : ∀ c' ∈ cs, wordOverlap q c' ≤ wordOverlap q c) :
    bestMatch q (c :: cs) = some c := by
  rw [bestMatch, List.foldl_cons,
    show bestStep q (none, 0) c = (some c, wordOverlap q c) from by
      simp [bestStep, h0],
    bestMatch_stay q c (wordOverlap q c) cs hle]

/-- C4, witness: the spec's concrete tie `chunks = ["word word", "word
word"]`, `question_text = "word"`: the chunk at index 0 is returned. -/
theorem c4_tiebreak_witness :
    0 < wordOverlap "word".data "word word".data ∧
    bestMatch "word".data ["word word".data, "word word".data] =
      some "word word".data :=
  ⟨by decide, c4_tiebreak_first "word".data "word word".data
    ["word word".data] (by decide) (by decide)⟩

theorem bestMatch_none (q : Line) (cs : List Line)
    (h : ∀ c ∈ cs, wordOverlap q c = 0) :
    List.foldl (bestStep q) (none, 0) cs = (none, 0) := by
  induction cs with
  | nil => rfl
  | cons c cs ih =>
    rw [List.foldl_cons]
    have hc : wordOverlap q c = 0 := h c (List.mem_cons_self c cs)
    rw [show bestStep q (none, 0) c = (none, 0) from by simp [bestStep, hc]]
    exact ih fun c' hc' => h c' (List.mem_cons_of_mem c hc')

/-- C5: when no chunk shares a word with the question, `best_match` returns
`none`, and the per-question loop of `gift_converter.main` still produces a
converted record for the question (one output per input), using the empty
context `""` for the feedback call instead of failing the record. -/
theorem c5_empty_overlap (r : QRec) (chunks : List Line)
    (fb : QRec → Line → List Line × List Line)
    (h : ∀ c ∈ chunks, wordOverlap r.question c = 0) :
    bestMatch r.question chunks = none ∧
    giftLoop fb chunks [r] =
      [convertToGift r (fb r []).1 (fb r []).2] := by
  have hbm : bestMatch r.question chunks = none := by
    rw [bestMatch, bestMatch_none r.question chunks h]
  refine ⟨hbm, ?_⟩
  simp [giftLoop, hbm]

/-- C5, witness: the spec's concrete empty-overlap case
`best_match("xyz123", ["alpha beta", "gamma delta"])`, with a constant
feedback oracle. -/
theorem c5_empty_overlap_witness :
    (∀ c ∈ ["alpha beta".data, "gamma delta".data],
      wordOverlap "xyz123".data c = 0) ∧
    bestMatch "xyz123".data ["alpha beta".data, "gamma delta".data] = none ∧
    giftLoop (fun _ _ => ([placeholderFb], [placeholderFb]))
        ["alpha beta".data, "gamma delta".data]
        [⟨"xyz123".data, ["a".data, "b".data, "c".data, "d".data],
          some "A".data⟩] =
      [convertToGift
        ⟨"xyz123".data, ["a".data, "b".data, "c".data, "d".data],
          some "A".data⟩ [placeholderFb] [placeholderFb]] :=
  ⟨by decide,
    c5_empty_overlap
      ⟨"xyz123".data, ["a".data, "b".data, "c".data, "d".data],
        some "A".data⟩
      ["alpha beta".data, "gamma delta".data]
      (fun _ _ => ([placeholderFb], [placeholderFb])) (by decide)⟩

/-- The expected token for option position `i` when the correct letter has
position `k`: `=`-prefixed with the head of `correct_feedback` at `i = k`,
`~`-prefixed otherwise, consuming `wrong_feedback` left to right (index `i`
before the correct position, `i - 1` after) with the placeholder for
missing entries. -/
def giftToken (k : Nat) (cfb wfb : List Line) (i : Nat) (o : Line) : Line :=
  if i = k then " =".data ++ o ++ " # ".data ++ cfb.headD placeholderFb
  else " ~".data ++ o ++ " # ".data ++
    wfb.getD (if i < k then i else i - 1) placeholderFb

/-- C9: annotated (GIFT) serialization placement.  For every complete record
(correct letter at position `k` of 4) and any feedback lists,
`convert_to_gift` emits one token per option in the original order: exactly
the token at position `k` is `=`-prefixed and carries `correct_feedback[0]`,
the other three are `~`-prefixed and consume `wrong_feedback` in
left-to-right order, substituting the fixed placeholder for missing
entries. -/
theorem c9_gift_placement (q o0 o1 o2 o3 : Line) (cfb wfb : List Line)
    (k : Fin 4) :
    convertToGift ⟨q, [o0, o1, o2, o3], some [letterChr k]⟩ cfb wfb =
      "::Q:: ".data ++ q ++ "\n\x7b".data ++
        giftToken k cfb wfb 0 o0 ++ giftToken k cfb wfb 1 o1 ++
        giftToken k cfb wfb 2 o2 ++ giftToken k cfb wfb 3 o3 ++
        " \x7d\n\n".data := by
  fin_cases k <;>
    simp [convertToGift, giftToken, List.enum, List.enumFrom,
      show letterChr 0 = 'A' from by decide,
      show letterChr 1 = 'B' from by decide,
      show letterChr 2 = 'C' from by decide,
      show letterChr 3 = 'D' from by decide]

/-! ### Chunker lemmas -/

/-- Fuel-indexed twin of `chunkTextAux` (structural recursion, so concrete
instances evaluate in the kernel); equal to `chunkTextAux` whenever the fuel
covers the remaining length. -/
def chunkTextAuxF : Nat → List Char → Nat → Nat → List (List Char)
  | 0, _, _, _ => []
  | fuel + 1, text, chunkSize, pos =>
    if pos < text.length then
      if text.length ≤ pos + chunkSize then
        [text.drop pos]
      else
        let split := splitPos text pos (pos + chunkSize)
        pstrip ((text.drop pos).take (split + 1 - pos))
          :: chunkTextAuxF fuel text chunkSize (split + 1)
    else []

theorem chunkTextAux_eq_fuel :
    ∀ (fuel : Nat) (text : List Char) (chunkSize pos : Nat),
      text.length - pos ≤ fuel →
      chunkTextAux text chunkSize pos = chunkTextAuxF fuel text chunkSize pos := by
  intro fuel
  induction fuel with
  | zero =>
    intro text N pos h
    have hnl : ¬pos < text.length := by omega
    rw [chunkTextAux, chunkTextAuxF]
    simp [hnl]
  | succ fuel ih =>
    intro text N pos h
    rw [chunkTextAux, chunkTextAuxF]
    by_cases h1 : pos < text.length
    · by_cases h2 : text.length ≤ pos + N
      · simp [h1, h2]
      · simp only [h1, h2, dif_pos, if_pos, if_neg, not_false_iff]
        have hge : pos ≤ splitPos text pos (pos + N) :=
          splitPos_ge text pos (pos + N) (Nat.le_add_right _ _)
        rw [ih text N (splitPos text pos (pos + N) + 1) (by omega)]
    · simp [h1]

theorem chunkText_eval (text : Line) (N : Nat) :
    chunkText text N = chunkTextAuxF text.length text N 0 :=
  chunkTextAux_eq_fuel text.length text N 0 (by omega)

theorem pstrip_length_le (l : Line) : (pstrip l).length ≤ l.length :=
  le_trans (pstripR_length_le _) (dropWhile_length_le pyws l)

theorem chunk_len_aux (text : List Char) (N : Nat) :
    ∀ (k pos : Nat), text.length - pos ≤ k →
      ∀ c ∈ chunkTextAux text N pos, c.length ≤ N + 1 := by
  intro k
  induction k with
  | zero =>
    intro pos h c hc
    have hnl : ¬pos < text.length := by omega
    rw [chunkTextAux] at hc
    simp [hnl] at hc
  | succ k ih =>
    intro pos h c hc
    rw [chunkTextAux] at hc
    by_cases h1 : pos < text.length
    · by_cases h2 : text.length ≤ pos + N
      · simp [h1, h2] at hc
        subst hc
        simp [List.length_drop]
        omega
      · simp only [h1, h2, dif_pos, if_neg, not_false_iff,
          List.mem_cons] at hc
        rcases hc with hc | hc
        · subst hc
          have hle : splitPos text pos (pos + N) ≤ pos + N :=
            splitPos_le text pos (pos + N)
          calc (pstrip ((text.drop pos).take
                (splitPos text pos (pos + N) + 1 - pos))).length
              ≤ ((text.drop pos).take
                (splitPos text pos (pos + N) + 1 - pos)).length :=
                pstrip_length_le _
            _ ≤ splitPos text pos (pos + N) + 1 - pos := by
                simp [List.length_take]
            _ ≤ N + 1 := by omega
        · have hge : pos ≤ splitPos text pos (pos + N) :=
            splitPos_ge text pos (pos + N) (Nat.le_add_right _ _)
          exact ih (splitPos text pos (pos + N) + 1) (by omega) c hc
    · simp [h1] at hc

/-- C6: chunk size bound.  For positive `N` and text longer than `N`, every
chunk produced by `chunk_text` except possibly the last (in fact every
chunk) has length at most `N + 1`: the one character of slack comes from the
emitted slice `text[pos : split_pos + 1]` including the boundary position
even on a hard cut at `split_pos = pos + N`. -/
theorem c6_chunk_size_bound (text : Line) (N : Nat) (hN : 0 < N)
    (hlen : N < text.length) :
    ∀ c ∈ (chunkText text N).dropLast, c.length ≤ N + 1 := by
  intro c hc
  exact chunk_len_aux text N text.length 0 (by omega) c
    (List.dropLast_subset _ hc)

/-- C6, witness: at `text = "hello world this is a test. ..."`, `N = 10`,
the first chunk (`"hello world"`, length 11 = N + 1) attains the slack. -/
theorem c6_chunk_size_witness :
    0 < 10 ∧ 10 < ("hello world this is a test. done".data : Line).length ∧
    ∀ c ∈ (chunkText "hello world this is a test. done".data 10).dropLast,
      c.length ≤ 10 + 1 :=
  ⟨by decide, by decide,
    c6_chunk_size_bound "hello world this is a test. done".data 10
      (by decide) (by decide)⟩

/-- Characters that survive whitespace removal. -/
def nonWs (c : Char) : Bool := !pyws c

theorem filter_dropWhile_pyws (l : Line) :
    (l.dropWhile pyws).filter nonWs = l.filter nonWs := by
  induction l with
  | nil => rfl
  | cons c cs ih =>
    rw [List.dropWhile_cons]
    by_cases hc : pyws c
    · have hnc : nonWs c = false := by simp [nonWs, hc]
      rw [if_pos hc, ih]
      simp [List.filter_cons, hnc]
    · simp [hc]

theorem filter_pstripR (l : Line) :
    (pstripR l).filter nonWs = l.filter nonWs := by
  induction l with
  | nil => rfl
  | cons c cs ih =>
    rw [pstripR]
    by_cases h : pstripR cs = []
    · simp only [h, if_pos]
      rw [h] at ih
      by_cases hc : pyws c
      · have : nonWs c = false := by simp [nonWs, hc]
        simp [hc, List.filter_cons, this, ← ih]
      · simp [hc, List.filter_cons, ← ih]
    · simp only [h, if_neg, not_false_iff]
      simp [List.filter_cons, ih]

theorem filter_pstrip (l : Line) :
    (pstrip l).filter nonWs = l.filter nonWs := by
  rw [pstrip, filter_pstripR, pstripL, filter_dropWhile_pyws]

theorem chunk_cover_aux (text : List Char) (N : Nat) :
    ∀ (k pos : Nat), text.length - pos ≤ k →
      ((chunkTextAux text N pos).flatten).filter nonWs =
        (text.drop pos).filter nonWs := by
  intro k
  induction k with
  | zero =>
    intro pos h
    have hnl : ¬pos < text.length := by omega
    rw [chunkTextAux]
    simp [hnl, List.drop_eq_nil_of_le (by omega : text.length ≤ pos)]
  | succ k ih =>
    intro pos h
    rw [chunkTextAux]
    by_cases h1 : pos < text.length
    · by_cases h2 : text.length ≤ pos + N
      · simp [h1, h2]
      · simp only [h1, h2, dif_pos, if_neg, not_false_iff, List.flatten_cons,
          List.filter_append]
        have hge : pos ≤ splitPos text pos (pos + N) :=
          splitPos_ge text pos (pos + N) (Nat.le_add_right _ _)
        rw [filter_pstrip, ih (splitPos text pos (pos + N) + 1) (by omega)]
        rw [show text.drop (splitPos text pos (pos + N) + 1) =
            (text.drop pos).drop (splitPos text pos (pos + N) + 1 - pos) from by
          rw [List.drop_drop]
          congr 1
          omega]
        rw [← List.filter_append, List.take_append_drop]
    · simp [h1, List.drop_eq_nil_of_le (show text.length ≤ pos by omega)]

/-- C7: chunk coverage.  For every text and positive `N`, the chunks of
`chunk_text` are consecutive slices of the text altered only by stripping
surrounding whitespace, so the concatenation of all chunks agrees with the
original text after discarding whitespace: no non-whitespace character is
dropped or reordered. -/
theorem c7_chunk_coverage (text : Line) (N : Nat) (hN : 0 < N) :
    ((chunkText text N).flatten).filter nonWs = text.filter nonWs := by
  have h := chunk_cover_aux text N text.length 0 (by omega)
  simpa using h

/-- C7, witness: coverage at a concrete text with boundary whitespace. -/
theorem c7_chunk_coverage_witness :
    0 < 4 ∧
    ((chunkText "ab. cd. ef".data 4).flatten).filter nonWs =
      ("ab. cd. ef".data : Line).filter nonWs :=
  ⟨by decide, c7_chunk_coverage "ab. cd. ef".data 4 (by decide)⟩

/-- C8: the chunker has no overlap support.  `chunk_text(text, chunk_size)`
takes no `overlap` parameter; after emitting a chunk ending at `split_pos`
the scan position always advances to `split_pos + 1`, so consecutive chunks
never share source characters.  Evaluated at the failing input
`chunk_text("ab. cd. ef", 4)`: the chunks are the three disjoint slices
`"ab."`, `"cd."`, `"ef"` (the `--overlap` CLI argument of `main.py`, default
500, is parsed but never passed to any chunking call). -/
theorem c8_no_overlap :
    chunkText "ab. cd. ef".data 4 = ["ab.".data, "cd.".data, "ef".data] ∧
    chunkText "hello world this is a test. done".data 10 =
      ["hello world".data, "this is a".data, "test. done".data] := by
  rw [chunkText_eval, chunkText_eval]
  decide

theorem startsWithL_exists (p : List Char) :
    ∀ l, startsWithL p l = true → ∃ t, l = p ++ t := by
  induction p with
  | nil => intro l _; exact ⟨l, rfl⟩
  | cons c cs ih =>
    intro l h
    cases l with
    | nil => simp [startsWithL] at h
    | cons a as =>
      rw [startsWithL] at h
      simp at h
      obtain ⟨rfl, h2⟩ := h
      obtain ⟨t, rfl⟩ := ih as h2
      exact ⟨t, rfl⟩

theorem splitC_length_ge_two (sep : Char) (l : Line) (h : sep ∈ l) :
    2 ≤ (splitC sep l).length := by
  induction l with
  | nil => simp at h
  | cons c cs ih =>
    rw [splitC]
    by_cases hc : c = sep
    · simp only [hc, if_pos]
      have := splitC_ne_nil sep cs
      have : 1 ≤ (splitC sep cs).length := by
        cases hx : splitC sep cs with
        | nil => exact absurd hx this
        | cons a as => simp
      simp
      omega
    · have hcs : sep ∈ cs := by
        rcases List.mem_cons.mp h with h | h
        · exact absurd h.symm hc
        · exact h
      have h2 := ih hcs
      simp only [hc, if_neg, not_false_iff]
      have : (splitC sep cs).tail.length = (splitC sep cs).length - 1 := by
        simp [List.length_tail]
      simp
      omega

theorem loadStepChecked_eq (st : Option QRec × List QRec) (raw : Line) :
    loadStepChecked st raw = some (loadStep st raw) := by
  unfold loadStep loadStepChecked
  by_cases h0 : pstrip raw = []
  · simp [h0]
  · simp only [h0, if_neg, not_false_iff]
    by_cases hq : (startsWithL "A.".data (pstrip raw) ||
        startsWithL "B.".data (pstrip raw) ||
        startsWithL "C.".data (pstrip raw) ||
        startsWithL "D.".data (pstrip raw) ||
        startsWithL "ANSWER:".data (pstrip raw)) = true
    · simp only [hq, Bool.not_true, if_neg, Bool.false_eq_true,
        not_false_iff]
      by_cases hans : startsWithL "ANSWER:".data (pstrip raw) = true
      · simp only [hans, if_pos]
        cases st.1 with
        | none => rfl
        | some q =>
          obtain ⟨t, ht⟩ := startsWithL_exists _ _ hans
          have hcol : ':' ∈ pstrip raw := by
            rw [ht]
            simp [show "ANSWER:".data = ['A', 'N', 'S', 'W', 'E', 'R', ':']
              from rfl]
          have hlen2 := splitC_length_ge_two ':' _ hcol
          simp [hlen2, ansTail]
      · simp only [hans, if_neg, not_false_iff, Bool.false_eq_true]
        cases st.1 with
        | none => rfl
        | some q =>
          have hor : startsWithL "A.".data (pstrip raw) = true ∨
              startsWithL "B.".data (pstrip raw) = true ∨
              startsWithL "C.".data (pstrip raw) = true ∨
              startsWithL "D.".data (pstrip raw) = true := by
            simp at hq
            rcases hq with h | h
            · rcases h with h | h
              · rcases h with h | h
                · rcases h with h | h
                  · exact Or.inl h
                  · exact Or.inr (Or.inl h)
                · exact Or.inr (Or.inr (Or.inl h))
              · exact Or.inr (Or.inr (Or.inr h))
            · exact absurd h hans
          have hlen2 : 2 ≤ (pstrip raw).length := by
            rcases hor with h | h | h | h <;>
              · obtain ⟨t, ht⟩ := startsWithL_two _ _ _ h
                rw [ht]
                simp
          have hn1 : ¬(pstrip raw).length < 1 := by omega
          have hn2 : ¬(pstrip raw).length < 2 := by omega
          simp only [hn1, hn2, if_neg, not_false_iff]
          by_cases hcont : (pstrip raw)[0]?.getD '?' = 'A' ∨
              (pstrip raw)[0]?.getD '?' = 'B' ∨
              (pstrip raw)[0]?.getD '?' = 'C' ∨
              (pstrip raw)[0]?.getD '?' = 'D'
          · by_cases hdot : (pstrip raw)[1]?.getD '?' = '.' <;>
              simp [hcont, hdot]
          · simp [hcont]
    · simp [hq]

theorem foldlM_loadStepChecked (lines : List Line) :
    ∀ st, lines.foldlM loadStepChecked st = some (lines.foldl loadStep st) := by
  induction lines with
  | nil => intro st; rfl
  | cons l ls ih =>
    intro st
    rw [List.foldlM_cons, loadStepChecked_eq]
    simp only [Option.bind_eq_bind, Option.some_bind]
    rw [ih, List.foldl_cons]

/-- States of the scanning loop whose accumulated records all have exactly 4
options and a non-empty question, and whose in-progress record (if any) has
a non-empty question. -/
def GoodState (st : Option QRec × List QRec) : Prop :=
  (∀ r ∈ st.2, r.options.length = 4 ∧ r.question ≠ []) ∧
  (∀ q, st.1 = some q → q.question ≠ [])

theorem optD_of_disj (l : Line)
    (hb : (startsWithL "A.".data l || startsWithL "B.".data l ||
      startsWithL "C.".data l || startsWithL "D.".data l ||
      startsWithL "ANSWER:".data l) = true)
    (hans : startsWithL "ANSWER:".data l = false)
    (h1 : startsWithL "A.".data l = false)
    (h2 : startsWithL "B.".data l = false)
    (h3 : startsWithL "C.".data l = false) :
    startsWithL "D.".data l = true := by
  simp [h1, h2, h3, hans] at hb
  exact hb

theorem loadStep_preserves (st : Option QRec × List QRec) (raw : Line)
    (h : GoodState st) : GoodState (loadStep st raw) := by
  obtain ⟨hacc, hcur⟩ := h
  rcases st with ⟨cur, acc⟩
  by_cases h0 : pstrip raw = []
  · cases cur with
    | none =>
      have hval : loadStep (none, acc) raw = (none, acc) := by
        unfold loadStep
        simp [h0]
      rw [hval]
      exact ⟨hacc, by simp⟩
    | some q =>
      by_cases h4 : q.options.length = 4
      · have hval : loadStep (some q, acc) raw = (none, acc ++ [q]) := by
          unfold loadStep
          simp [h0, h4]
        rw [hval]
        refine ⟨?_, by simp⟩
        intro r hr
        rcases List.mem_append.mp hr with hr | hr
        · exact hacc r hr
        · rcases List.mem_singleton.mp hr with rfl
          exact ⟨h4, hcur _ rfl⟩
      · have hval : loadStep (some q, acc) raw = (none, acc) := by
          unfold loadStep
          simp [h0, h4]
        rw [hval]
        exact ⟨hacc, by simp⟩
  · by_cases hb : (startsWithL "A.".data (pstrip raw) ||
        startsWithL "B.".data (pstrip raw) ||
        startsWithL "C.".data (pstrip raw) ||
        startsWithL "D.".data (pstrip raw) ||
        startsWithL "ANSWER:".data (pstrip raw)) = true
    · by_cases hans : startsWithL "ANSWER:".data (pstrip raw) = true
      · cases cur with
        | none =>
          have hval : loadStep (none, acc) raw = (none, acc) := by
            unfold loadStep
            simp [h0, hb, hans]
          rw [hval]
          exact ⟨hacc, by simp⟩
        | some q =>
          have hval : loadStep (some q, acc) raw =
              (some { q with correct := some (ansTail (pstrip raw)) }, acc) := by
            unfold loadStep
            simp [h0, hb, hans]
          rw [hval]
          refine ⟨hacc, ?_⟩
          intro q' hq'
          cases hq'
          exact hcur q rfl
      · cases cur with
        | none =>
          have hval : loadStep (none, acc) raw = (none, acc) := by
            unfold loadStep
            simp [h0, hb, hans]
            intro h1 h2 h3
            exact optD_of_disj _ hb (by simpa using hans) h1 h2 h3
          rw [hval]
          exact ⟨hacc, by simp⟩
        | some q =>
          by_cases hreg : ((pstrip raw)[0]?.getD '?' = 'A' ∨
              (pstrip raw)[0]?.getD '?' = 'B' ∨
              (pstrip raw)[0]?.getD '?' = 'C' ∨
              (pstrip raw)[0]?.getD '?' = 'D') ∧
              (pstrip raw)[1]?.getD '?' = '.'
          · have hval : loadStep (some q, acc) raw =
                (some { q with options :=
                  q.options ++ [pstrip ((pstrip raw).drop 2)] }, acc) := by
              unfold loadStep
              simp [h0, hb, hans, hreg]
              intro h1 h2 h3
              exact optD_of_disj _ hb (by simpa using hans) h1 h2 h3
            rw [hval]
            refine ⟨hacc, ?_⟩
            intro q' hq'
            cases hq'
            exact hcur q rfl
          · have hval : loadStep (some q, acc) raw = (some q, acc) := by
              unfold loadStep
              simp [h0, hb, hans, hreg]
              intro h1 h2 h3 h4
              have hd := optD_of_disj _ hb (by simpa using hans) h1 h2 h3
              exact absurd hd (by simp [h4])
            rw [hval]
            refine ⟨hacc, ?_⟩
            intro q' hq'
            cases hq'
            exact hcur q rfl
    · have hval : loadStep (cur, acc) raw =
          (some ⟨pstrip raw, [], none⟩, acc) := by
        unfold loadStep
        simp [h0, hb]
      rw [hval]
      refine ⟨hacc, ?_⟩
      intro q' hq'
      cases hq'
      exact h0

theorem foldl_loadStep_good (lines : List Line) :
    ∀ st, GoodState st → GoodState (lines.foldl loadStep st) := by
  induction lines with
  | nil => intro st h; exact h
  | cons l ls ih =>
    intro st h
    rw [List.foldl_cons]
    exact ih _ (loadStep_preserves st l h)

/-- C10: implicit parse-result invariant.  For every sequence of input
lines: (1) the checked evaluation of `load_questions` (which fails wherever
the Python code would raise an `IndexError`) succeeds and agrees with the
total function — the guarded `line[0]`/`line[1]`/`split(':')[1]` accesses
never go out of range; and (2) every returned record has exactly 4 options
and a non-empty question, so downstream consumers indexing
`options[0..3]` are safe. -/
theorem c10_parse_invariant (lines : List Line) :
    loadQuestionsChecked lines = some (loadQuestions lines) ∧
    ∀ r ∈ loadQuestions lines, r.options.length = 4 ∧ r.question ≠ [] := by
  constructor
  · unfold loadQuestionsChecked loadQuestions
    rw [foldlM_loadStepChecked]
    simp only [Option.bind_eq_bind, Option.some_bind]
    cases hs : (lines.foldl loadStep (none, [])).1 with
    | none => rfl
    | some q =>
      by_cases h4 : q.options.length = 4 <;> simp [h4]
  · intro r hr
    obtain ⟨hacc, hcur⟩ := foldl_loadStep_good lines (none, [])
      ⟨by simp, by simp⟩
    have hr' : r ∈ (match (lines.foldl loadStep (none, [])).1 with
      | some q =>
        if q.options.length = 4 then (lines.foldl loadStep (none, [])).2 ++ [q]
        else (lines.foldl loadStep (none, [])).2
      | none => (lines.foldl loadStep (none, [])).2) := hr
    cases hs : (lines.foldl loadStep (none, [])).1 with
    | none =>
      rw [hs] at hr'
      exact hacc r hr'
    | some q =>
      rw [hs] at hr'
      by_cases h4 : q.options.length = 4
      · simp only [h4, if_pos] at hr'
        rcases List.mem_append.mp hr' with hr' | hr'
        · exact hacc r hr'
        · rcases List.mem_singleton.mp hr' with rfl
          exact ⟨h4, hcur _ hs⟩
      · simp only [h4, if_neg, not_false_iff] at hr'
        exact hacc r hr'
